import Mathlib

/-!
Verification of the transcript normalizer and vocabulary encoder of
`src/gluon/datasets/mcv_asr_dataset.py` (class `McvDataset`).

The repository file is stored with every non-ASCII character mangled to a run
of `?` bytes (one `?` per UTF-8 byte of the original character).  The rule
structure, rule order, replacement texts and list arities are all visible in
the file; only the identities of the non-ASCII characters are lost.  Those
identities are reconstructed below from the UTF-8 byte widths left in the
file and from the spec's descriptions of the rules (diacritic folding,
Cyrillic look-alikes, the dotted-letter merge, the per-language alphabets).
Definitions whose characters are reconstructed this way carry a note in
their doc comment.

Strings are embedded as `List Char`.  The external `unidecode.unidecode`
transliteration and `unicodedata.combining` predicate are third-party
libraries, not repository code: they are kept abstract as parameters
(`ud : Char → List Char`, `comb : Char → Bool`).
-/

/-- Apostrophe character (written via its code point). -/
def apos : Char := Char.ofNat 39

/-- Double-quote character (written via its code point). -/
def quot : Char := Char.ofNat 34

/-- Backtick character (written via its code point). -/
def btick : Char := Char.ofNat 96

/-- Model of Python `str.lower` on the character ranges this component
touches: ASCII `A`-`Z`, Latin-1 `À`-`Þ` (minus `×`), Cyrillic `А`-`Я`
and `Ё`.  Every other character is left unchanged. -/
def pyLower (c : Char) : Char :=
  if ('A' ≤ c ∧ c ≤ 'Z') ∨ (('À' ≤ c ∧ c ≤ 'Þ') ∧ c ≠ '×') ∨ ('А' ≤ c ∧ c ≤ 'Я') then
    Char.ofNat (c.toNat + 32)
  else if c = 'Ё' then 'ё'
  else c

/-- Model of `re.sub` for a single-character alternation pattern
(e.g. `re.sub("à|â", "a", text)`): every character of `S` is replaced by
the string `r`. -/
def subClass (S r : List Char) : List Char → List Char
  | [] => []
  | c :: cs => (if c ∈ S then r else [c]) ++ subClass S r cs

/-- Model of `re.sub` for a literal two-character pattern `[a, b]`
(leftmost match, non-overlapping, replacement not rescanned). -/
def subStr2 (a b : Char) (r : List Char) : List Char → List Char
  | [] => []
  | [x] => [x]
  | x :: y :: t =>
    if x = a ∧ y = b then r ++ subStr2 a b r t
    else x :: subStr2 a b r (y :: t)

/-- Model of `re.sub` for a literal three-character pattern `[a, b, c]`
(leftmost match, non-overlapping, replacement not rescanned). -/
def subStr3 (a b c : Char) (r : List Char) : List Char → List Char
  | [] => []
  | [x] => [x]
  | [x, y] => [x, y]
  | x :: y :: z :: t =>
    if x = a ∧ y = b ∧ z = c then r ++ subStr3 a b c r t
    else x :: subStr3 a b c r (y :: z :: t)

/-- Python `\s` whitespace characters (the ASCII ones). -/
def isWs (c : Char) : Bool :=
  c = ' ' ∨ c = Char.ofNat 9 ∨ c = Char.ofNat 10 ∨ c = Char.ofNat 13 ∨
    c = Char.ofNat 11 ∨ c = Char.ofNat 12

/-- Model of `re.sub("\s+", " ", text)`: each maximal run of whitespace is
replaced by a single space. -/
def collapseWs : List Char → List Char
  | [] => []
  | [c] => if isWs c then [' '] else [c]
  | c :: d :: cs =>
    if isWs c then
      (if isWs d then collapseWs (d :: cs) else ' ' :: collapseWs (d :: cs))
    else c :: collapseWs (d :: cs)

/-- Model of `re.sub(" $", "", text)`: one trailing space is removed. -/
def stripTrailSp (t : List Char) : List Char :=
  if t.getLast? = some ' ' then t.dropLast else t

/-- Model of
`"".join((c if c in self.vocabulary else unidecode.unidecode(c)) for c in text)`
(source lines 151, 157, 163, 171) with the external transliteration kept
abstract as `ud`. -/
def fallbackMap (ud : Char → List Char) (v : List Char) : List Char → List Char
  | [] => []
  | c :: cs => (if c ∈ v then [c] else ud c) ++ fallbackMap ud v cs

/-- Apply an ordered list of single-character-class substitution rules,
first rule first, mirroring the source's sequence of `re.sub` calls. -/
def applyRules : List (List Char × List Char) → List Char → List Char
  | [], t => t
  | p :: rest, t => applyRules rest (subClass p.1 p.2 t)

/-- Worker for `pyDict`: scans the vocabulary left to right, remembering the
index of the most recent occurrence of `c` (Python dict comprehension
semantics: later keys overwrite earlier ones). -/
def pyDictGo (c : Char) : Nat → List Char → Option Nat → Option Nat
  | _, [], acc => acc
  | i, d :: ds, acc => pyDictGo c (i + 1) ds (if d = c then some i else acc)

/-- Model of `vocabulary_dict = {c: i for i, c in enumerate(self.vocabulary)}`
followed by a lookup (source line 46): `some i` when `c` is in the
vocabulary (`i` the index of its last occurrence), `none` when the lookup
would raise `KeyError`. -/
def pyDict (v : List Char) (c : Char) : Option Nat := pyDictGo c 0 v none

/-- Index of the first occurrence of `c` in a list (the character's index
in the vocabulary when the vocabulary has no duplicates). -/
def firstIndex (c : Char) : List Char → Nat
  | [] => 0
  | d :: ds => if d = c then 0 else firstIndex c ds + 1

/-- Model of `[vocabulary_dict[c] for c in text]` (source line 196):
one index per character, failing with the first character whose lookup
raises `KeyError` (that character is the error payload). -/
def encode_chars (v : List Char) : List Char → Except Char (List Nat)
  | [] => Except.ok []
  | c :: cs =>
    match pyDict v c with
    | none => Except.error c
    | some i =>
      match encode_chars v cs with
      | Except.error e => Except.error e
      | Except.ok xs => Except.ok (i :: xs)

/-- Decoding an index sequence back through the vocabulary table:
`some` exactly when every index is in range. -/
def decode_chars (v : List Char) : List Nat → Option (List Char)
  | [] => some []
  | i :: xs =>
    match v.get? i, decode_chars v xs with
    | some c, some cs => some (c :: cs)
    | _, _ => none

/-- Errors of the component: the `assert` on the language code
(source lines 42 and 223) and the `KeyError` of the vocabulary lookup
(source line 196). -/
inductive PyErr
  | assertFail : PyErr
  | keyError : Char → PyErr
deriving DecidableEq

deriving instance DecidableEq for Except

/-- The closed set of supported language codes (source line 42). -/
def supported_langs : List String :=
  [("en"), ("fr"), ("de"), ("it"), ("es"), ("ca"), ("pl"), ("ru"), ("ru34")]

/-- English vocabulary (source lines 225-226). -/
def vocab_en : List Char := (" abcdefghijklmnopqrstuvwxyz").toList ++ [apos]

/-- French vocabulary (source lines 228-230).  The 14 accented letters are
mangled in the repository file; reconstructed as the French accented
alphabet. -/
def vocab_fr : List Char :=
  (" abcdefghijklmnopqrstuvwxyz").toList ++ [apos] ++ ("àâäçèéêëîïôùûü").toList

/-- German vocabulary (source lines 232-233): no apostrophe, four mangled
specials reconstructed as `ä ö ü ß`. -/
def vocab_de : List Char := (" abcdefghijklmnopqrstuvwxyz").toList ++ ("äöüß").toList

/-- Italian vocabulary (source lines 235-236); ten mangled accents
reconstructed as the Italian accented vowels. -/
def vocab_it : List Char :=
  (" abcdefghijklmnopqrstuvwxyz").toList ++ [apos] ++ ("àèéìíîòóùú").toList

/-- Spanish vocabulary (source lines 238-239); seven mangled specials
reconstructed as `á é í ñ ó ú ü`. -/
def vocab_es : List Char :=
  (" abcdefghijklmnopqrstuvwxyz").toList ++ [apos] ++ ("áéíñóúü").toList

/-- Catalan vocabulary (source lines 241-242); ten mangled specials
reconstructed as the Catalan accented letters. -/
def vocab_ca : List Char :=
  (" abcdefghijklmnopqrstuvwxyz").toList ++ [apos] ++ ("àçèéíïòóúü").toList

/-- Polish vocabulary (source lines 244-245), 33 symbols; mangled letters
reconstructed as the Polish alphabet in its source positions. -/
def vocab_pl : List Char := (" aąbcćdeęfghijklłmnńoóprsśtuwyzźż").toList

/-- Russian vocabulary (source lines 247-248), 34 symbols: space plus the
33-letter Russian alphabet including `ё`. -/
def vocab_ru : List Char := (" абвгдеёжзийклмнопрстуфхцчшщъыьэюя").toList

/-- Russian "ru34" vocabulary (source lines 250-251), 33 symbols: the same
alphabet with the dotted letter `ё` removed (merged into `е`). -/
def vocab_ru34 : List Char := (" абвгдежзийклмнопрстуфхцчшщъыьэюя").toList

/-- Model of `McvDataset.get_vocabulary_for_lang` (source lines 208-253):
`none` models the `assert` failure for an unsupported code. -/
def get_vocabulary_for_lang (lang : String) : Option (List Char) :=
  if lang = "en" then some vocab_en
  else if lang = "fr" then some vocab_fr
  else if lang = "de" then some vocab_de
  else if lang = "it" then some vocab_it
  else if lang = "es" then some vocab_es
  else if lang = "ca" then some vocab_ca
  else if lang = "pl" then some vocab_pl
  else if lang = "ru" then some vocab_ru
  else if lang = "ru34" then some vocab_ru34
  else none

/-- The vocabulary of a supported language. -/
def vocab_of (lang : String) : List Char := (get_vocabulary_for_lang lang).getD []

/-- English rule cascade (source lines 85-90).  The mangled characters are
reconstructed as em/en dashes, `ø`, `á à`, `é` and the curly quotes. -/
def en_rules : List (List Char × List Char) :=
  [ ((".-—–").toList, (" ").toList),
    (("&").toList, (" and ").toList),
    (("ø").toList, ("o").toList),
    (("áà").toList, ("a").toList),
    (("é").toList, ("e").toList),
    ((",;:!?“”‘’()").toList ++ [quot], ([] : List Char)) ]

/-- French rule cascade (source lines 96-121); mangled characters
reconstructed per their UTF-8 byte widths (punctuation, currency signs,
and the diacritic-folding tables described by the spec). -/
def fr_rules : List (List Char × List Char) :=
  [ ((".-—–=°*…/‐_―").toList, (" ").toList),
    ((",;:!?¿“”„«»()").toList ++ [quot], ([] : List Char)),
    (("‘′″†‡•$£€₣").toList, ([] : List Char)),
    (("’´").toList, [apos]),
    (("&").toList, (" and ").toList),
    (("œ").toList, ("oe").toList),
    (("æ").toList, ("ae").toList),
    (("áãåāăąǎ").toList, ("a").toList),
    (("óòõōỏő").toList, ("o").toList),
    (("ēęě").toList, ("e").toList),
    (("íì").toList, ("i").toList),
    (("úū").toList, ("u").toList),
    (("ý").toList, ("y").toList),
    (("šşśș").toList, ("s").toList),
    (("žźż").toList, ("z").toList),
    (("ñńṅ").toList, ("n").toList),
    (("łľ").toList, ("l").toList),
    (("čć").toList, ("c").toList),
    (("я").toList, ("ya").toList),
    (("ř").toList, ("r").toList),
    (("đ").toList, ("d").toList),
    (("ť").toList, ("t").toList),
    (("þ").toList, ("th").toList),
    (("ğ").toList, ("g").toList),
    (("ß").toList, ("ss").toList),
    (("μ").toList, ("mu").toList) ]

/-- German rule cascade (source lines 124-143); mangled characters
reconstructed per their UTF-8 byte widths. -/
def de_rules : List (List Char × List Char) :=
  [ ((".-—–/_―").toList, (" ").toList),
    ((",;:!?“”«»‘’„‚¡¿‹›()").toList ++ [quot, apos], ([] : List Char)),
    (("°…†•").toList, ([] : List Char)),
    (("&").toList, (" and ").toList),
    (("å").toList, ("a").toList),
    (("æ").toList, ("ae").toList),
    (("áàâãāăą").toList, ("a").toList),
    (("óòôỏõōő").toList, ("o").toList),
    (("éèêëē").toList, ("e").toList),
    (("úụ").toList, ("u").toList),
    (("íìî").toList, ("i").toList),
    (("šśşș").toList, ("s").toList),
    (("çč").toList, ("c").toList),
    (("đ").toList, ("d").toList),
    (("ğ").toList, ("g").toList),
    (("ł").toList, ("l").toList),
    (("ř").toList, ("r").toList),
    (("ñ").toList, ("n").toList),
    (("ť").toList, ("t").toList),
    (("žź").toList, ("z").toList) ]

/-- Italian rule cascade before the transliteration fallback
(source lines 146-150). -/
def it_rules : List (List Char × List Char) :=
  [ ((".-—–/_―").toList, (" ").toList),
    ((",;:!?“”„«»‘’<>()").toList ++ [quot], ([] : List Char)),
    (("$#€").toList, ([] : List Char)),
    (("’").toList ++ [btick], [apos]),
    (("å").toList, ("a").toList) ]

/-- Spanish rule cascade before the transliteration fallback
(source lines 154-156). -/
def es_rules : List (List Char × List Char) :=
  [ ((".-—–/=_\x7b…").toList, (" ").toList),
    ((",;:!?“”„«»‘’<>()¡¿").toList ++ [quot], ([] : List Char)),
    (("†•").toList, ([] : List Char)) ]

/-- Catalan rule cascade before the transliteration fallback
(source lines 160-162). -/
def ca_rules : List (List Char × List Char) :=
  [ ((".-—–/=_·@+…").toList, (" ").toList),
    ((",;:!?“”„«»‘’<>()¡¿").toList ++ [quot], ([] : List Char)),
    (("†•").toList, ([] : List Char)) ]

/-- Polish rule cascade before the transliteration fallback
(source lines 166-170): punctuation handling, then the three literal
letter substitutions `q`→`k`, `x`→`ks`, `v`→`w`. -/
def pl_rules : List (List Char × List Char) :=
  [ ((".-—–/=_·@+…").toList, (" ").toList),
    ((",;:!?“”„«»‘’<>()").toList ++ [quot], ([] : List Char)),
    (("q").toList, ("k").toList),
    (("x").toList, ("ks").toList),
    (("v").toList, ("w").toList) ]

/-- Russian single-character rules (source lines 177-189): punctuation to
space, punctuation deletion, then the Latin-to-Cyrillic look-alike table
(`x` expands to the two letters `кс`). -/
def ru_rules : List (List Char × List Char) :=
  [ ((".…-—–―").toList, (" ").toList),
    ((",;:!?“”„‚«»").toList ++ [quot, apos], ([] : List Char)),
    (("m").toList, ("м").toList),
    (("o").toList, ("о").toList),
    (("z").toList, ("з").toList),
    (("i").toList, ("и").toList),
    (("l").toList, ("л").toList),
    (("a").toList, ("а").toList),
    (("f").toList, ("ф").toList),
    (("r").toList, ("р").toList),
    (("e").toList, ("е").toList),
    (("x").toList, ("кс").toList),
    (("h").toList, ("н").toList) ]

/-- English branch of the cascade (source lines 84-93): rules, whitespace
collapse, then the two apostrophe-boundary strips. -/
def norm_en (t : List Char) : List Char :=
  subStr2 apos ' ' ((" ").toList)
    (subStr2 ' ' apos ((" ").toList) (collapseWs (applyRules en_rules t)))

/-- French branch (source lines 94-122): combining-mark strip (the
`unicodedata.combining` predicate kept abstract as `comb`), rules,
whitespace collapse. -/
def norm_fr (comb : Char → Bool) (t : List Char) : List Char :=
  collapseWs (applyRules fr_rules (t.filter (fun c => comb c = false)))

/-- German branch (source lines 123-144). -/
def norm_de (t : List Char) : List Char := collapseWs (applyRules de_rules t)

/-- Italian branch (source lines 145-152): rules, transliteration fallback,
whitespace collapse. -/
def norm_it (ud : Char → List Char) (t : List Char) : List Char :=
  collapseWs (fallbackMap ud vocab_it (applyRules it_rules t))

/-- Spanish branch (source lines 153-158). -/
def norm_es (ud : Char → List Char) (t : List Char) : List Char :=
  collapseWs (fallbackMap ud vocab_es (applyRules es_rules t))

/-- Catalan branch (source lines 159-164). -/
def norm_ca (ud : Char → List Char) (t : List Char) : List Char :=
  collapseWs (fallbackMap ud vocab_ca (applyRules ca_rules t))

/-- Polish pipeline up to and including the three literal letter
substitutions, i.e. the text handed to the transliteration fallback
(source lines 166-170). -/
def pl_pre (t : List Char) : List Char := applyRules pl_rules t

/-- Polish branch (source lines 165-172). -/
def norm_pl (ud : Char → List Char) (t : List Char) : List Char :=
  collapseWs (fallbackMap ud vocab_pl (pl_pre t))

/-- Russian cascade shared by `ru` and `ru34` (source lines 174-190):
the three hyphen-compound contractions, the single-character rules, the
whitespace collapse.  The compound patterns are reconstructed as
`из-`→`из`, `по-`→`по`, `-то`→`то` per their byte widths. -/
def ru_core (t : List Char) : List Char :=
  collapseWs (applyRules ru_rules
    (subStr3 '-' 'т' 'о' (("то").toList)
      (subStr3 'п' 'о' '-' (("по").toList)
        (subStr3 'и' 'з' '-' (("из").toList) t))))

/-- Russian branch (source lines 173-192): for `ru34` the extra
dotted-letter merge `ё`→`е` runs after the shared cascade. -/
def norm_ru (ru34 : Bool) (t : List Char) : List Char :=
  if ru34 then subClass (("ё").toList) (("е").toList) (ru_core t) else ru_core t

/-- The full normalization of one raw sentence (source lines 82-194):
lower-casing, the per-language branch, and the final single
trailing-space strip shared by all branches. -/
def normalize_text (ud : Char → List Char) (comb : Char → Bool)
    (lang : String) (s : List Char) : List Char :=
  let text := s.map pyLower
  let text :=
    if lang = "en" then norm_en text
    else if lang = "fr" then norm_fr comb text
    else if lang = "de" then norm_de text
    else if lang = "it" then norm_it ud text
    else if lang = "es" then norm_es ud text
    else if lang = "ca" then norm_ca ud text
    else if lang = "pl" then norm_pl ud text
    else if lang = "ru" then norm_ru false text
    else if lang = "ru34" then norm_ru true text
    else text
  stripTrailSp text

/-- Processing of one utterance sentence (source lines 42-46, 82-196):
the language assertion, then normalization, then vocabulary encoding. -/
def process_sentence (ud : Char → List Char) (comb : Char → Bool)
    (lang : String) (s : List Char) : Except PyErr (List Nat) :=
  match get_vocabulary_for_lang lang with
  | none => Except.error PyErr.assertFail
  | some v => (encode_chars v (normalize_text ud comb lang s)).mapError PyErr.keyError

/-- Characters reachable by a substitution cascade: the vocabulary plus
every character consumed by one of the cascade's explicit rules. -/
def reachable_of (v : List Char) (rules : List (List Char × List Char)) : List Char :=
  v ++ (rules.map Prod.fst).flatten

/-- Characters reachable by the substitution cascade of a language: the
vocabulary together with the characters the cascade's explicit rules
consume (for `ru34`, `ё` is also reachable, merged into `е`). -/
def reachable_chars (lang : String) : List Char :=
  if lang = "en" then reachable_of vocab_en en_rules
  else if lang = "fr" then reachable_of vocab_fr fr_rules
  else if lang = "de" then reachable_of vocab_de de_rules
  else if lang = "it" then reachable_of vocab_it it_rules
  else if lang = "es" then reachable_of vocab_es es_rules
  else if lang = "ca" then reachable_of vocab_ca ca_rules
  else if lang = "pl" then reachable_of vocab_pl pl_rules
  else if lang = "ru" then reachable_of vocab_ru ru_rules
  else if lang = "ru34" then reachable_of vocab_ru ru_rules
  else []

/-- A concrete stand-in transliteration (identity) used to instantiate the
abstract `unidecode` parameter in closed statements. -/
def ud_id : Char → List Char := fun c => [c]

/-- A concrete stand-in combining-class predicate (constantly false) used
to instantiate the abstract `unicodedata.combining` parameter. -/
def comb_none : Char → Bool := fun _ => false

/-- Modelled from the spec: the claim's reading of the label contract strips
a leading space of the normalized text as well (spec section 3
"leading/trailing space stripped"); the code at source line 194 strips only
one trailing space.  This definition follows the spec's words and is
compared against the code's behaviour. -/
def stripLeadSp (t : List Char) : List Char :=
  match t with
  | ' ' :: cs => cs
  | _ => t

/-- Modelled from the spec: normalized text with both a leading and a
trailing space stripped, as the claim reads the label contract. -/
def stripLeadTrail (t : List Char) : List Char := stripLeadSp (stripTrailSp t)

/-- The `ru34` letter merge as a character function: the dotted letter `ё`
maps to its base letter `е`, everything else is unchanged. -/
def yo_merge (c : Char) : Char := if c = 'ё' then 'е' else c

/-- A second stand-in transliteration that differs from `ud_id` exactly on
`q`, `x` and `v` (used to witness that the Polish fallback never sees those
letters). -/
def ud_drop : Char → List Char :=
  fun c => if c = 'q' ∨ c = 'x' ∨ c = 'v' then [] else [c]

/-! ### Character-set propagation lemmas for the substitution combinators -/

theorem subClass_chars (S r : List Char) :
    ∀ t : List Char, ∀ c ∈ subClass S r t, c ∈ r ∨ (c ∈ t ∧ c ∉ S)
  | [] => by simp [subClass]
  | d :: ds => by
    intro c hc
    by_cases hd : d ∈ S
    · simp only [subClass, if_pos hd] at hc
      rcases List.mem_append.mp hc with h | h
      · exact Or.inl h
      · rcases subClass_chars S r ds c h with h1 | ⟨h1, h2⟩
        · exact Or.inl h1
        · exact Or.inr ⟨List.mem_cons_of_mem _ h1, h2⟩
    · simp only [subClass, if_neg hd] at hc
      rcases List.mem_append.mp hc with h | h
      · rw [List.mem_singleton] at h
        subst h
        exact Or.inr ⟨List.mem_cons_self _ _, hd⟩
      · rcases subClass_chars S r ds c h with h1 | ⟨h1, h2⟩
        · exact Or.inl h1
        · exact Or.inr ⟨List.mem_cons_of_mem _ h1, h2⟩

theorem subStr2_chars (a b : Char) (r : List Char) :
    ∀ t : List Char, ∀ c ∈ subStr2 a b r t, c ∈ r ∨ c ∈ t
  | [] => by simp [subStr2]
  | [x] => by simp [subStr2]
  | x :: y :: t => by
    intro c hc
    by_cases h : x = a ∧ y = b
    · simp only [subStr2, if_pos h] at hc
      rcases List.mem_append.mp hc with h1 | h1
      · exact Or.inl h1
      · rcases subStr2_chars a b r t c h1 with h2 | h2
        · exact Or.inl h2
        · exact Or.inr (List.mem_cons_of_mem _ (List.mem_cons_of_mem _ h2))
    · simp only [subStr2, if_neg h] at hc
      rcases List.mem_cons.mp hc with h1 | h1
      · exact Or.inr (h1 ▸ List.mem_cons_self _ _)
      · rcases subStr2_chars a b r (y :: t) c h1 with h2 | h2
        · exact Or.inl h2
        · exact Or.inr (List.mem_cons_of_mem _ h2)

theorem subStr3_chars (a b c0 : Char) (r : List Char) :
    ∀ t : List Char, ∀ c ∈ subStr3 a b c0 r t, c ∈ r ∨ c ∈ t
  | [] => by simp [subStr3]
  | [x] => by simp [subStr3]
  | [x, y] => by
    intro c hc
    right
    simpa [subStr3] using hc
  | x :: y :: z :: t => by
    intro c hc
    by_cases h : x = a ∧ y = b ∧ z = c0
    · simp only [subStr3, if_pos h] at hc
      rcases List.mem_append.mp hc with h1 | h1
      · exact Or.inl h1
      · rcases subStr3_chars a b c0 r t c h1 with h2 | h2
        · exact Or.inl h2
        · exact Or.inr
            (List.mem_cons_of_mem _ (List.mem_cons_of_mem _ (List.mem_cons_of_mem _ h2)))
    · simp only [subStr3, if_neg h] at hc
      rcases List.mem_cons.mp hc with h1 | h1
      · exact Or.inr (h1 ▸ List.mem_cons_self _ _)
      · rcases subStr3_chars a b c0 r (y :: z :: t) c h1 with h2 | h2
        · exact Or.inl h2
        · exact Or.inr (List.mem_cons_of_mem _ h2)

theorem collapseWs_chars :
    ∀ t : List Char, ∀ c ∈ collapseWs t, c = ' ' ∨ c ∈ t
  | [] => by simp [collapseWs]
  | [d] => by
    intro c hc
    by_cases h : isWs d = true <;> simp [collapseWs, h] at hc <;> simp [hc]
  | d :: e :: t => by
    intro c hc
    by_cases h1 : isWs d = true
    · by_cases h2 : isWs e = true
      · simp only [collapseWs, h1, h2, if_pos] at hc
        rcases collapseWs_chars (e :: t) c hc with h | h
        · exact Or.inl h
        · exact Or.inr (List.mem_cons_of_mem _ h)
      · simp only [collapseWs, h1, h2, if_pos, if_neg, Bool.false_eq_true,
          not_false_eq_true] at hc
        rcases List.mem_cons.mp hc with h | h
        · exact Or.inl h
        · rcases collapseWs_chars (e :: t) c h with h3 | h3
          · exact Or.inl h3
          · exact Or.inr (List.mem_cons_of_mem _ h3)
    · simp only [collapseWs, h1, Bool.false_eq_true, not_false_eq_true, if_neg] at hc
      rcases List.mem_cons.mp hc with h | h
      · exact Or.inr (h ▸ List.mem_cons_self _ _)
      · rcases collapseWs_chars (e :: t) c h with h3 | h3
        · exact Or.inl h3
        · exact Or.inr (List.mem_cons_of_mem _ h3)

theorem dropLast_chars {α : Type} :
    ∀ t : List α, ∀ c ∈ t.dropLast, c ∈ t
  | [] => by simp
  | [x] => by simp
  | x :: y :: t => by
    intro c hc
    simp only [List.dropLast_cons₂] at hc
    rcases List.mem_cons.mp hc with h | h
    · exact h ▸ List.mem_cons_self _ _
    · exact List.mem_cons_of_mem _ (dropLast_chars (y :: t) c h)

theorem stripTrailSp_chars (t : List Char) : ∀ c ∈ stripTrailSp t, c ∈ t := by
  intro c hc
  unfold stripTrailSp at hc
  by_cases h : t.getLast? = some ' '
  · rw [if_pos h] at hc
    exact dropLast_chars t c hc
  · rw [if_neg h] at hc
    exact hc

theorem fallbackMap_eq_self (ud : Char → List Char) (v : List Char) :
    ∀ t : List Char, (∀ c ∈ t, c ∈ v) → fallbackMap ud v t = t
  | [], _ => rfl
  | c :: cs, h => by
    have hc : c ∈ v := h c (List.mem_cons_self _ _)
    simp [fallbackMap, hc,
      fallbackMap_eq_self ud v cs (fun d hd => h d (List.mem_cons_of_mem _ hd))]

theorem fallbackMap_congr (ud ud2 : Char → List Char) (v : List Char) :
    ∀ t : List Char, (∀ c ∈ t, c ∉ v → ud c = ud2 c) →
      fallbackMap ud v t = fallbackMap ud2 v t
  | [], _ => rfl
  | c :: cs, h => by
    have hrec := fallbackMap_congr ud ud2 v cs (fun d hd => h d (List.mem_cons_of_mem _ hd))
    by_cases hc : c ∈ v
    · simp [fallbackMap, hc, hrec]
    · simp [fallbackMap, hc, h c (List.mem_cons_self _ _) hc, hrec]

theorem applyRules_mem (V : List Char) :
    ∀ (rules : List (List Char × List Char)) (t : List Char),
      (∀ p ∈ rules, ∀ c ∈ p.2, c ∈ V) →
      (∀ p ∈ rules, ∀ c ∈ V, c ∉ p.1) →
      (∀ c ∈ t, c ∈ V ∨ ∃ p ∈ rules, c ∈ p.1) →
      ∀ c ∈ applyRules rules t, c ∈ V
  | [], t, _, _, ht => by
    intro c hc
    simp only [applyRules] at hc
    rcases ht c hc with h | ⟨p, hp, _⟩
    · exact h
    · exact absurd hp (List.not_mem_nil p)
  | p0 :: rest, t, hrepl, hdisj, ht => by
    intro c hc
    simp only [applyRules] at hc
    refine applyRules_mem V rest (subClass p0.1 p0.2 t)
      (fun p hp => hrepl p (List.mem_cons_of_mem _ hp))
      (fun p hp => hdisj p (List.mem_cons_of_mem _ hp)) ?_ c hc
    intro d hd
    rcases subClass_chars p0.1 p0.2 t d hd with h1 | ⟨h1, h2⟩
    · exact Or.inl (hrepl p0 (List.mem_cons_self _ _) d h1)
    · rcases ht d h1 with h3 | ⟨p, hp, hmem⟩
      · exact Or.inl h3
      · rcases List.mem_cons.mp hp with rfl | hp'
        · exact absurd hmem h2
        · exact Or.inr ⟨p, hp', hmem⟩

theorem reachable_split {v : List Char} {rules : List (List Char × List Char)}
    {c : Char} (h : c ∈ reachable_of v rules) :
    c ∈ v ∨ ∃ p ∈ rules, c ∈ p.1 := by
  rcases List.mem_append.mp h with h | h
  · exact Or.inl h
  · right
    obtain ⟨l, hl, hc⟩ := List.mem_flatten.mp h
    obtain ⟨p, hp, rfl⟩ := List.mem_map.mp hl
    exact ⟨p, hp, hc⟩

theorem map_mem_of_fix {R : List Char} (hfix : ∀ c ∈ R, pyLower c = c) :
    ∀ s : List Char, (∀ c ∈ s, c ∈ R) → ∀ c ∈ s.map pyLower, c ∈ R := by
  intro s hs c hc
  obtain ⟨d, hd, rfl⟩ := List.mem_map.mp hc
  rw [hfix d (hs d hd)]
  exact hs d hd

/-! ### Dictionary, encoding and decoding lemmas -/

theorem pyDictGo_of_not_mem (c : Char) :
    ∀ (v : List Char) (i : Nat) (acc : Option Nat), c ∉ v → pyDictGo c i v acc = acc
  | [], _, _, _ => rfl
  | d :: ds, i, acc, h => by
    have hd : ¬ d = c := fun e => h (e ▸ List.mem_cons_self _ _)
    have hds : c ∉ ds := fun m => h (List.mem_cons_of_mem _ m)
    simp only [pyDictGo, if_neg hd]
    exact pyDictGo_of_not_mem c ds (i + 1) acc hds

theorem pyDictGo_mem_some (c : Char) :
    ∀ (v : List Char) (i : Nat) (acc : Option Nat), c ∈ v →
      ∃ j, pyDictGo c i v acc = some j
  | [], _, _, h => absurd h (List.not_mem_nil c)
  | d :: ds, i, acc, h => by
    by_cases hds : c ∈ ds
    · exact pyDictGo_mem_some c ds (i + 1) _ hds
    · have hd : d = c := by
        rcases List.mem_cons.mp h with h1 | h1
        · exact h1.symm
        · exact absurd h1 hds
      refine ⟨i, ?_⟩
      simp only [pyDictGo, if_pos hd]
      exact pyDictGo_of_not_mem c ds (i + 1) (some i) hds

theorem pyDictGo_add (c : Char) (k : Nat) :
    ∀ (v : List Char) (i : Nat) (acc : Option Nat),
      pyDictGo c (i + k) v (acc.map (· + k)) = (pyDictGo c i v acc).map (· + k)
  | [], _, _ => rfl
  | d :: ds, i, acc => by
    by_cases hd : d = c
    · simp only [pyDictGo, if_pos hd]
      have h1 : i + k + 1 = i + 1 + k := by omega
      have h2 : (some (i + k) : Option Nat) = (some i).map (· + k) := rfl
      rw [h1, h2]
      exact pyDictGo_add c k ds (i + 1) (some i)
    · simp only [pyDictGo, if_neg hd]
      have h1 : i + k + 1 = i + 1 + k := by omega
      rw [h1]
      exact pyDictGo_add c k ds (i + 1) acc

theorem pyDict_nodup (c : Char) :
    ∀ v : List Char, v.Nodup → c ∈ v → pyDict v c = some (firstIndex c v)
  | [], _, h => absurd h (List.not_mem_nil c)
  | d :: ds, hv, h => by
    obtain ⟨hd_nin, hds_nd⟩ := List.nodup_cons.mp hv
    unfold pyDict
    by_cases hd : d = c
    · have hcds : c ∉ ds := hd ▸ hd_nin
      simp only [pyDictGo, if_pos hd, firstIndex]
      exact pyDictGo_of_not_mem c ds (0 + 1) (some 0) hcds
    · have hcds : c ∈ ds := by
        rcases List.mem_cons.mp h with h1 | h1
        · exact absurd h1.symm hd
        · exact h1
      have hrec := pyDict_nodup c ds hds_nd hcds
      unfold pyDict at hrec
      have hshift : pyDictGo c (0 + 1) ds ((none : Option Nat).map (· + 1)) =
          (pyDictGo c 0 ds none).map (· + 1) := pyDictGo_add c 1 ds 0 none
      rw [show ((none : Option Nat).map (· + 1)) = none from rfl] at hshift
      simp only [pyDictGo, if_neg hd, firstIndex, hshift, hrec]
      rfl

theorem pyDictGo_get (c : Char) :
    ∀ (v : List Char) (i : Nat) (acc : Option Nat) (j : Nat),
      pyDictGo c i v acc = some j →
      acc = some j ∨ ∃ k, j = i + k ∧ v.get? k = some c
  | [], _, acc, j, h => Or.inl h
  | d :: ds, i, acc, j, h => by
    by_cases hd : d = c
    · simp only [pyDictGo, if_pos hd] at h
      rcases pyDictGo_get c ds (i + 1) (some i) j h with h1 | ⟨k, hk, hg⟩
      · have hij : i = j := Option.some.inj h1
        refine Or.inr ⟨0, by omega, ?_⟩
        simp [hd]
      · exact Or.inr ⟨k + 1, by omega, by simpa using hg⟩
    · simp only [pyDictGo, if_neg hd] at h
      rcases pyDictGo_get c ds (i + 1) acc j h with h1 | ⟨k, hk, hg⟩
      · exact Or.inl h1
      · exact Or.inr ⟨k + 1, by omega, by simpa using hg⟩

theorem pyDict_get {v : List Char} {c : Char} {j : Nat}
    (h : pyDict v c = some j) : v.get? j = some c := by
  rcases pyDictGo_get c v 0 none j h with h1 | ⟨k, hk, hg⟩
  · exact absurd h1 (by simp)
  · rw [hk]
    simpa using hg

theorem pyDict_none_of_not_mem {v : List Char} {c : Char} (h : c ∉ v) :
    pyDict v c = none := pyDictGo_of_not_mem c v 0 none h

theorem pyDict_mem {v : List Char} {c : Char} {j : Nat}
    (h : pyDict v c = some j) : c ∈ v := by
  by_contra hc
  rw [pyDict_none_of_not_mem hc] at h
  exact Option.noConfusion h

theorem firstIndex_get (c : Char) :
    ∀ v : List Char, c ∈ v → v.get? (firstIndex c v) = some c
  | [], h => absurd h (List.not_mem_nil c)
  | d :: ds, h => by
    by_cases hd : d = c
    · simp [firstIndex, hd]
    · have hcds : c ∈ ds := by
        rcases List.mem_cons.mp h with h1 | h1
        · exact absurd h1.symm hd
        · exact h1
      simp only [firstIndex, if_neg hd]
      simpa using firstIndex_get c ds hcds

theorem encode_ok_of_mem (v : List Char) :
    ∀ t : List Char, (∀ c ∈ t, c ∈ v) → ∃ xs, encode_chars v t = Except.ok xs
  | [], _ => ⟨[], rfl⟩
  | c :: cs, h => by
    obtain ⟨i, hi⟩ := pyDictGo_mem_some c v 0 none (h c (List.mem_cons_self _ _))
    obtain ⟨xs, hxs⟩ := encode_ok_of_mem v cs (fun d hd => h d (List.mem_cons_of_mem _ hd))
    refine ⟨i :: xs, ?_⟩
    simp only [encode_chars, pyDict] at *
    rw [hi, hxs]

theorem encode_ok_get (v : List Char) :
    ∀ (t : List Char) (xs : List Nat), encode_chars v t = Except.ok xs →
      xs.length = t.length ∧ ∀ i c, t.get? i = some c → xs.get? i = pyDict v c
  | [], xs, h => by
    have hxs : xs = [] := by
      simpa [encode_chars] using h.symm
    subst hxs
    exact ⟨rfl, fun i c hc => by simp at hc⟩
  | c :: cs, xs, h => by
    cases hpd : pyDict v c with
    | none => rw [encode_chars, hpd] at h; exact Except.noConfusion h
    | some i =>
      rw [encode_chars, hpd] at h
      cases hrec : encode_chars v cs with
      | error e => rw [hrec] at h; exact Except.noConfusion h
      | ok ys =>
        rw [hrec] at h
        have hxs : xs = i :: ys := (Except.ok.inj h).symm
        subst hxs
        obtain ⟨hlen, hget⟩ := encode_ok_get v cs ys hrec
        refine ⟨by simp [hlen], ?_⟩
        intro i' c' hc'
        cases i' with
        | zero =>
          have hcc : c = c' := by simpa using hc'
          subst hcc
          simpa using hpd.symm
        | succ n =>
          simp only [List.get?_cons_succ] at hc' ⊢
          exact hget n c' hc'

theorem encode_ok_all_mem (v : List Char) :
    ∀ (t : List Char) (xs : List Nat), encode_chars v t = Except.ok xs →
      ∀ c ∈ t, c ∈ v
  | [], _, _ => by simp
  | c :: cs, xs, h => by
    cases hpd : pyDict v c with
    | none => rw [encode_chars, hpd] at h; exact Except.noConfusion h
    | some i =>
      rw [encode_chars, hpd] at h
      cases hrec : encode_chars v cs with
      | error e => rw [hrec] at h; exact Except.noConfusion h
      | ok ys =>
        intro d hd
        rcases List.mem_cons.mp hd with h1 | h1
        · exact h1 ▸ pyDict_mem hpd
        · exact encode_ok_all_mem v cs ys hrec d h1

theorem encode_error_spec (v : List Char) :
    ∀ (t : List Char) (e : Char), encode_chars v t = Except.error e →
      ∃ pre post, t = pre ++ e :: post ∧ (∀ d ∈ pre, d ∈ v) ∧ e ∉ v
  | [], e, h => by simp [encode_chars] at h
  | c :: cs, e, h => by
    cases hpd : pyDict v c with
    | none =>
      rw [encode_chars, hpd] at h
      have hec : e = c := (Except.error.inj h).symm
      subst hec
      refine ⟨[], cs, by simp, by simp, ?_⟩
      intro hmem
      obtain ⟨j, hj⟩ := pyDictGo_mem_some e v 0 none hmem
      rw [show pyDictGo e 0 v none = pyDict v e from rfl, hpd] at hj
      exact Option.noConfusion hj
    | some i =>
      rw [encode_chars, hpd] at h
      cases hrec : encode_chars v cs with
      | ok ys => rw [hrec] at h; exact Except.noConfusion h
      | error e' =>
        rw [hrec] at h
        have hee : e' = e := Except.error.inj h
        obtain ⟨pre, post, heq, hpre, hnin⟩ := encode_error_spec v cs e' hrec
        refine hee ▸ ⟨c :: pre, post, by simp [heq], ?_, hnin⟩
        intro d hd
        rcases List.mem_cons.mp hd with h1 | h1
        · exact h1 ▸ pyDict_mem hpd
        · exact hpre d h1

theorem decode_encode (v : List Char) :
    ∀ (t : List Char) (xs : List Nat), encode_chars v t = Except.ok xs →
      decode_chars v xs = some t
  | [], xs, h => by
    have hxs : xs = [] := by simpa [encode_chars] using h.symm
    subst hxs
    rfl
  | c :: cs, xs, h => by
    cases hpd : pyDict v c with
    | none => rw [encode_chars, hpd] at h; exact Except.noConfusion h
    | some i =>
      rw [encode_chars, hpd] at h
      cases hrec : encode_chars v cs with
      | error e => rw [hrec] at h; exact Except.noConfusion h
      | ok ys =>
        rw [hrec] at h
        have hxs : xs = i :: ys := (Except.ok.inj h).symm
        subst hxs
        have hget : v.get? i = some c := pyDict_get hpd
        have hrec2 : decode_chars v ys = some cs := decode_encode v cs ys hrec
        have hunfold : decode_chars v (i :: ys) =
            match v.get? i, decode_chars v ys with
            | some c, some cs => some (c :: cs)
            | _, _ => none := rfl
        rw [hunfold, hget, hrec2]

/-- Shared helper: a string over the vocabulary encodes successfully and
decodes back to itself. -/
theorem encode_decode_ok (v : List Char) (t : List Char)
    (h : ∀ c ∈ t, c ∈ v) :
    ∃ xs, encode_chars v t = Except.ok xs ∧ decode_chars v xs = some t := by
  obtain ⟨xs, hxs⟩ := encode_ok_of_mem v t h
  exact ⟨xs, hxs, decode_encode v t xs hxs⟩

/-! ### Per-language results: every character surviving the cascade is in
the language's vocabulary, provided the input uses only reachable
characters. -/

theorem norm_en_mem (t : List Char)
    (ht : ∀ c ∈ t, c ∈ reachable_of vocab_en en_rules) :
    ∀ c ∈ norm_en t, c ∈ vocab_en := by
  have h1 : ∀ c ∈ applyRules en_rules t, c ∈ vocab_en := by
    refine applyRules_mem vocab_en en_rules t (by decide) (by decide) ?_
    intro c hc
    exact reachable_split (ht c hc)
  have h2 : ∀ c ∈ collapseWs (applyRules en_rules t), c ∈ vocab_en := by
    intro c hc
    rcases collapseWs_chars _ c hc with h | h
    · exact h ▸ (by decide : (' ' : Char) ∈ vocab_en)
    · exact h1 c h
  have h3 : ∀ c ∈ subStr2 ' ' apos ((" ").toList)
      (collapseWs (applyRules en_rules t)), c ∈ vocab_en := by
    intro c hc
    rcases subStr2_chars _ _ _ _ c hc with h | h
    · exact (by decide : ∀ c ∈ (" ").toList, c ∈ vocab_en) c h
    · exact h2 c h
  intro c hc
  unfold norm_en at hc
  rcases subStr2_chars _ _ _ _ c hc with h | h
  · exact (by decide : ∀ c ∈ (" ").toList, c ∈ vocab_en) c h
  · exact h3 c h

theorem norm_fr_mem (comb : Char → Bool) (t : List Char)
    (ht : ∀ c ∈ t, c ∈ reachable_of vocab_fr fr_rules) :
    ∀ c ∈ norm_fr comb t, c ∈ vocab_fr := by
  have h0 : ∀ c ∈ t.filter (fun c => comb c = false),
      c ∈ reachable_of vocab_fr fr_rules := by
    intro c hc
    exact ht c (List.mem_of_mem_filter hc)
  have h1 : ∀ c ∈ applyRules fr_rules (t.filter (fun c => comb c = false)),
      c ∈ vocab_fr := by
    refine applyRules_mem vocab_fr fr_rules _ (by decide) (by decide) ?_
    intro c hc
    exact reachable_split (h0 c hc)
  intro c hc
  unfold norm_fr at hc
  rcases collapseWs_chars _ c hc with h | h
  · exact h ▸ (by decide : (' ' : Char) ∈ vocab_fr)
  · exact h1 c h

theorem norm_de_mem (t : List Char)
    (ht : ∀ c ∈ t, c ∈ reachable_of vocab_de de_rules) :
    ∀ c ∈ norm_de t, c ∈ vocab_de := by
  have h1 : ∀ c ∈ applyRules de_rules t, c ∈ vocab_de := by
    refine applyRules_mem vocab_de de_rules t (by decide) (by decide) ?_
    intro c hc
    exact reachable_split (ht c hc)
  intro c hc
  unfold norm_de at hc
  rcases collapseWs_chars _ c hc with h | h
  · exact h ▸ (by decide : (' ' : Char) ∈ vocab_de)
  · exact h1 c h

theorem norm_it_mem (ud : Char → List Char) (t : List Char)
    (ht : ∀ c ∈ t, c ∈ reachable_of vocab_it it_rules) :
    ∀ c ∈ norm_it ud t, c ∈ vocab_it := by
  have h1 : ∀ c ∈ applyRules it_rules t, c ∈ vocab_it := by
    refine applyRules_mem vocab_it it_rules t (by decide) (by decide) ?_
    intro c hc
    exact reachable_split (ht c hc)
  have h2 : fallbackMap ud vocab_it (applyRules it_rules t) = applyRules it_rules t :=
    fallbackMap_eq_self ud vocab_it _ h1
  intro c hc
  unfold norm_it at hc
  rw [h2] at hc
  rcases collapseWs_chars _ c hc with h | h
  · exact h ▸ (by decide : (' ' : Char) ∈ vocab_it)
  · exact h1 c h

theorem norm_es_mem (ud : Char → List Char) (t : List Char)
    (ht : ∀ c ∈ t, c ∈ reachable_of vocab_es es_rules) :
    ∀ c ∈ norm_es ud t, c ∈ vocab_es := by
  have h1 : ∀ c ∈ applyRules es_rules t, c ∈ vocab_es := by
    refine applyRules_mem vocab_es es_rules t (by decide) (by decide) ?_
    intro c hc
    exact reachable_split (ht c hc)
  have h2 : fallbackMap ud vocab_es (applyRules es_rules t) = applyRules es_rules t :=
    fallbackMap_eq_self ud vocab_es _ h1
  intro c hc
  unfold norm_es at hc
  rw [h2] at hc
  rcases collapseWs_chars _ c hc with h | h
  · exact h ▸ (by decide : (' ' : Char) ∈ vocab_es)
  · exact h1 c h

theorem norm_ca_mem (ud : Char → List Char) (t : List Char)
    (ht : ∀ c ∈ t, c ∈ reachable_of vocab_ca ca_rules) :
    ∀ c ∈ norm_ca ud t, c ∈ vocab_ca := by
  have h1 : ∀ c ∈ applyRules ca_rules t, c ∈ vocab_ca := by
    refine applyRules_mem vocab_ca ca_rules t (by decide) (by decide) ?_
    intro c hc
    exact reachable_split (ht c hc)
  have h2 : fallbackMap ud vocab_ca (applyRules ca_rules t) = applyRules ca_rules t :=
    fallbackMap_eq_self ud vocab_ca _ h1
  intro c hc
  unfold norm_ca at hc
  rw [h2] at hc
  rcases collapseWs_chars _ c hc with h | h
  · exact h ▸ (by decide : (' ' : Char) ∈ vocab_ca)
  · exact h1 c h

theorem pl_pre_mem (t : List Char)
    (ht : ∀ c ∈ t, c ∈ reachable_of vocab_pl pl_rules) :
    ∀ c ∈ pl_pre t, c ∈ vocab_pl := by
  unfold pl_pre
  refine applyRules_mem vocab_pl pl_rules t (by decide) (by decide) ?_
  intro c hc
  exact reachable_split (ht c hc)

theorem norm_pl_mem (ud : Char → List Char) (t : List Char)
    (ht : ∀ c ∈ t, c ∈ reachable_of vocab_pl pl_rules) :
    ∀ c ∈ norm_pl ud t, c ∈ vocab_pl := by
  have h1 := pl_pre_mem t ht
  have h2 : fallbackMap ud vocab_pl (pl_pre t) = pl_pre t :=
    fallbackMap_eq_self ud vocab_pl _ h1
  intro c hc
  unfold norm_pl at hc
  rw [h2] at hc
  rcases collapseWs_chars _ c hc with h | h
  · exact h ▸ (by decide : (' ' : Char) ∈ vocab_pl)
  · exact h1 c h

theorem ru_core_mem (t : List Char)
    (ht : ∀ c ∈ t, c ∈ reachable_of vocab_ru ru_rules) :
    ∀ c ∈ ru_core t, c ∈ vocab_ru := by
  have hs1 : ∀ c ∈ subStr3 'и' 'з' '-' (("из").toList) t,
      c ∈ reachable_of vocab_ru ru_rules := by
    intro c hc
    rcases subStr3_chars _ _ _ _ _ c hc with h | h
    · exact (by decide : ∀ c ∈ ("из").toList, c ∈ reachable_of vocab_ru ru_rules) c h
    · exact ht c h
  have hs2 : ∀ c ∈ subStr3 'п' 'о' '-' (("по").toList)
      (subStr3 'и' 'з' '-' (("из").toList) t),
      c ∈ reachable_of vocab_ru ru_rules := by
    intro c hc
    rcases subStr3_chars _ _ _ _ _ c hc with h | h
    · exact (by decide : ∀ c ∈ ("по").toList, c ∈ reachable_of vocab_ru ru_rules) c h
    · exact hs1 c h
  have hs3 : ∀ c ∈ subStr3 '-' 'т' 'о' (("то").toList)
      (subStr3 'п' 'о' '-' (("по").toList)
        (subStr3 'и' 'з' '-' (("из").toList) t)),
      c ∈ reachable_of vocab_ru ru_rules := by
    intro c hc
    rcases subStr3_chars _ _ _ _ _ c hc with h | h
    · exact (by decide : ∀ c ∈ ("то").toList, c ∈ reachable_of vocab_ru ru_rules) c h
    · exact hs2 c h
  have h1 : ∀ c ∈ applyRules ru_rules (subStr3 '-' 'т' 'о' (("то").toList)
      (subStr3 'п' 'о' '-' (("по").toList)
        (subStr3 'и' 'з' '-' (("из").toList) t))), c ∈ vocab_ru := by
    refine applyRules_mem vocab_ru ru_rules _ (by decide) (by decide) ?_
    intro c hc
    exact reachable_split (hs3 c hc)
  intro c hc
  unfold ru_core at hc
  rcases collapseWs_chars _ c hc with h | h
  · exact h ▸ (by decide : (' ' : Char) ∈ vocab_ru)
  · exact h1 c h

theorem norm_ru_false_mem (t : List Char)
    (ht : ∀ c ∈ t, c ∈ reachable_of vocab_ru ru_rules) :
    ∀ c ∈ norm_ru false t, c ∈ vocab_ru := by
  intro c hc
  exact ru_core_mem t ht c (by simpa [norm_ru] using hc)

theorem norm_ru_true_mem (t : List Char)
    (ht : ∀ c ∈ t, c ∈ reachable_of vocab_ru ru_rules) :
    ∀ c ∈ norm_ru true t, c ∈ vocab_ru34 := by
  have h1 := ru_core_mem t ht
  intro c hc
  simp only [norm_ru, if_pos] at hc
  rcases subClass_chars _ _ _ c hc with h | ⟨h2, h3⟩
  · exact (by decide : ∀ c ∈ ("е").toList, c ∈ vocab_ru34) c h
  · exact ((by decide : ∀ c ∈ vocab_ru, c ∈ ("ё").toList ∨ c ∈ vocab_ru34) c
      (h1 c h2)).resolve_left h3

/-! Dispatch equations for the language branches, the vocabulary table and
the reachable-character table (each holds by definitional unfolding). -/

theorem normalize_text_en (ud : Char → List Char) (comb : Char → Bool) (s : List Char) :
    normalize_text ud comb "en" s = stripTrailSp (norm_en (s.map pyLower)) := by
  simp only [normalize_text, if_pos (rfl : ("en" : String) = "en"), if_true]

theorem normalize_text_fr (ud : Char → List Char) (comb : Char → Bool) (s : List Char) :
    normalize_text ud comb "fr" s = stripTrailSp (norm_fr comb (s.map pyLower)) := by
  simp only [normalize_text,
    if_neg (by decide : ¬ ("fr" : String) = "en"),
    if_pos (rfl : ("fr" : String) = "fr"), if_true]

theorem normalize_text_de (ud : Char → List Char) (comb : Char → Bool) (s : List Char) :
    normalize_text ud comb "de" s = stripTrailSp (norm_de (s.map pyLower)) := by
  simp only [normalize_text,
    if_neg (by decide : ¬ ("de" : String) = "en"),
    if_neg (by decide : ¬ ("de" : String) = "fr"),
    if_pos (rfl : ("de" : String) = "de"), if_true]

theorem normalize_text_it (ud : Char → List Char) (comb : Char → Bool) (s : List Char) :
    normalize_text ud comb "it" s = stripTrailSp (norm_it ud (s.map pyLower)) := by
  simp only [normalize_text,
    if_neg (by decide : ¬ ("it" : String) = "en"),
    if_neg (by decide : ¬ ("it" : String) = "fr"),
    if_neg (by decide : ¬ ("it" : String) = "de"),
    if_pos (rfl : ("it" : String) = "it"), if_true]

theorem normalize_text_es (ud : Char → List Char) (comb : Char → Bool) (s : List Char) :
    normalize_text ud comb "es" s = stripTrailSp (norm_es ud (s.map pyLower)) := by
  simp only [normalize_text,
    if_neg (by decide : ¬ ("es" : String) = "en"),
    if_neg (by decide : ¬ ("es" : String) = "fr"),
    if_neg (by decide : ¬ ("es" : String) = "de"),
    if_neg (by decide : ¬ ("es" : String) = "it"),
    if_pos (rfl : ("es" : String) = "es"), if_true]

theorem normalize_text_ca (ud : Char → List Char) (comb : Char → Bool) (s : List Char) :
    normalize_text ud comb "ca" s = stripTrailSp (norm_ca ud (s.map pyLower)) := by
  simp only [normalize_text,
    if_neg (by decide : ¬ ("ca" : String) = "en"),
    if_neg (by decide : ¬ ("ca" : String) = "fr"),
    if_neg (by decide : ¬ ("ca" : String) = "de"),
    if_neg (by decide : ¬ ("ca" : String) = "it"),
    if_neg (by decide : ¬ ("ca" : String) = "es"),
    if_pos (rfl : ("ca" : String) = "ca"), if_true]

theorem normalize_text_pl (ud : Char → List Char) (comb : Char → Bool) (s : List Char) :
    normalize_text ud comb "pl" s = stripTrailSp (norm_pl ud (s.map pyLower)) := by
  simp only [normalize_text,
    if_neg (by decide : ¬ ("pl" : String) = "en"),
    if_neg (by decide : ¬ ("pl" : String) = "fr"),
    if_neg (by decide : ¬ ("pl" : String) = "de"),
    if_neg (by decide : ¬ ("pl" : String) = "it"),
    if_neg (by decide : ¬ ("pl" : String) = "es"),
    if_neg (by decide : ¬ ("pl" : String) = "ca"),
    if_pos (rfl : ("pl" : String) = "pl"), if_true]

theorem normalize_text_ru (ud : Char → List Char) (comb : Char → Bool) (s : List Char) :
    normalize_text ud comb "ru" s = stripTrailSp (norm_ru false (s.map pyLower)) := by
  simp only [normalize_text,
    if_neg (by decide : ¬ ("ru" : String) = "en"),
    if_neg (by decide : ¬ ("ru" : String) = "fr"),
    if_neg (by decide : ¬ ("ru" : String) = "de"),
    if_neg (by decide : ¬ ("ru" : String) = "it"),
    if_neg (by decide : ¬ ("ru" : String) = "es"),
    if_neg (by decide : ¬ ("ru" : String) = "ca"),
    if_neg (by decide : ¬ ("ru" : String) = "pl"),
    if_pos (rfl : ("ru" : String) = "ru"), if_true]

theorem normalize_text_ru34 (ud : Char → List Char) (comb : Char → Bool) (s : List Char) :
    normalize_text ud comb "ru34" s = stripTrailSp (norm_ru true (s.map pyLower)) := by
  simp only [normalize_text,
    if_neg (by decide : ¬ ("ru34" : String) = "en"),
    if_neg (by decide : ¬ ("ru34" : String) = "fr"),
    if_neg (by decide : ¬ ("ru34" : String) = "de"),
    if_neg (by decide : ¬ ("ru34" : String) = "it"),
    if_neg (by decide : ¬ ("ru34" : String) = "es"),
    if_neg (by decide : ¬ ("ru34" : String) = "ca"),
    if_neg (by decide : ¬ ("ru34" : String) = "pl"),
    if_neg (by decide : ¬ ("ru34" : String) = "ru"),
    if_pos (rfl : ("ru34" : String) = "ru34"), if_true]

theorem vocab_of_en : vocab_of "en" = vocab_en := rfl
theorem vocab_of_fr : vocab_of "fr" = vocab_fr := rfl
theorem vocab_of_de : vocab_of "de" = vocab_de := rfl
theorem vocab_of_it : vocab_of "it" = vocab_it := rfl
theorem vocab_of_es : vocab_of "es" = vocab_es := rfl
theorem vocab_of_ca : vocab_of "ca" = vocab_ca := rfl
theorem vocab_of_pl : vocab_of "pl" = vocab_pl := rfl
theorem vocab_of_ru : vocab_of "ru" = vocab_ru := rfl
theorem vocab_of_ru34 : vocab_of "ru34" = vocab_ru34 := rfl

theorem reachable_chars_en : reachable_chars "en" = reachable_of vocab_en en_rules := rfl
theorem reachable_chars_fr : reachable_chars "fr" = reachable_of vocab_fr fr_rules := rfl
theorem reachable_chars_de : reachable_chars "de" = reachable_of vocab_de de_rules := rfl
theorem reachable_chars_it : reachable_chars "it" = reachable_of vocab_it it_rules := rfl
theorem reachable_chars_es : reachable_chars "es" = reachable_of vocab_es es_rules := rfl
theorem reachable_chars_ca : reachable_chars "ca" = reachable_of vocab_ca ca_rules := rfl
theorem reachable_chars_pl : reachable_chars "pl" = reachable_of vocab_pl pl_rules := rfl
theorem reachable_chars_ru : reachable_chars "ru" = reachable_of vocab_ru ru_rules := rfl
theorem reachable_chars_ru34 : reachable_chars "ru34" = reachable_of vocab_ru ru_rules := rfl

set_option maxRecDepth 16000 in
/-- Master lemma: for a supported language, normalization of a sentence over
the language's reachable characters produces only vocabulary characters. -/
theorem normalize_mem (ud : Char → List Char) (comb : Char → Bool)
    (lang : String) (s : List Char) (hl : lang ∈ supported_langs)
    (hs : ∀ c ∈ s, c ∈ reachable_chars lang) :
    ∀ c ∈ normalize_text ud comb lang s, c ∈ vocab_of lang := by
  simp only [supported_langs, List.mem_cons, List.not_mem_nil, or_false] at hl
  rcases hl with rfl | rfl | rfl | rfl | rfl | rfl | rfl | rfl | rfl
  · rw [reachable_chars_en] at hs
    intro c hc
    rw [normalize_text_en] at hc
    rw [vocab_of_en]
    exact norm_en_mem _ (map_mem_of_fix (by decide) s hs) c (stripTrailSp_chars _ c hc)
  · rw [reachable_chars_fr] at hs
    intro c hc
    rw [normalize_text_fr] at hc
    rw [vocab_of_fr]
    exact norm_fr_mem comb _ (map_mem_of_fix (by decide) s hs) c
      (stripTrailSp_chars _ c hc)
  · rw [reachable_chars_de] at hs
    intro c hc
    rw [normalize_text_de] at hc
    rw [vocab_of_de]
    exact norm_de_mem _ (map_mem_of_fix (by decide) s hs) c (stripTrailSp_chars _ c hc)
  · rw [reachable_chars_it] at hs
    intro c hc
    rw [normalize_text_it] at hc
    rw [vocab_of_it]
    exact norm_it_mem ud _ (map_mem_of_fix (by decide) s hs) c
      (stripTrailSp_chars _ c hc)
  · rw [reachable_chars_es] at hs
    intro c hc
    rw [normalize_text_es] at hc
    rw [vocab_of_es]
    exact norm_es_mem ud _ (map_mem_of_fix (by decide) s hs) c
      (stripTrailSp_chars _ c hc)
  · rw [reachable_chars_ca] at hs
    intro c hc
    rw [normalize_text_ca] at hc
    rw [vocab_of_ca]
    exact norm_ca_mem ud _ (map_mem_of_fix (by decide) s hs) c
      (stripTrailSp_chars _ c hc)
  · rw [reachable_chars_pl] at hs
    intro c hc
    rw [normalize_text_pl] at hc
    rw [vocab_of_pl]
    exact norm_pl_mem ud _ (map_mem_of_fix (by decide) s hs) c
      (stripTrailSp_chars _ c hc)
  · rw [reachable_chars_ru] at hs
    intro c hc
    rw [normalize_text_ru] at hc
    rw [vocab_of_ru]
    exact norm_ru_false_mem _ (map_mem_of_fix (by decide) s hs) c
      (stripTrailSp_chars _ c hc)
  · rw [reachable_chars_ru34] at hs
    intro c hc
    rw [normalize_text_ru34] at hc
    rw [vocab_of_ru34]
    exact norm_ru_true_mem _ (map_mem_of_fix (by decide) s hs) c
      (stripTrailSp_chars _ c hc)

theorem subClass_singleton_map (a b : Char) :
    ∀ t : List Char, subClass [a] [b] t = t.map (fun c => if c = a then b else c)
  | [] => rfl
  | c :: cs => by
    by_cases hc : c = a <;>
      simp [subClass, hc, subClass_singleton_map a b cs]

theorem stripTrailSp_map (f : Char → Char) (hf : ∀ c, f c = ' ' ↔ c = ' ') :
    ∀ t : List Char, stripTrailSp (t.map f) = (stripTrailSp t).map f := by
  intro t
  induction t using List.reverseRecOn with
  | nil => rfl
  | append_singleton as a _ =>
    unfold stripTrailSp
    rw [List.map_append, List.map_singleton, List.getLast?_concat, List.getLast?_concat]
    by_cases ha : a = ' '
    · rw [if_pos (by simp only [Option.some.injEq]; exact (hf a).mpr ha),
        if_pos (by simp only [Option.some.injEq]; exact ha),
        List.dropLast_concat, List.dropLast_concat]
    · rw [if_neg (by simp only [Option.some.injEq]; exact fun e => ha ((hf a).mp e)),
        if_neg (by simp only [Option.some.injEq]; exact ha),
        List.map_append, List.map_singleton]

/-! ### Helpers tying the pipeline together -/

theorem get_vocab_eq (lang : String) (hl : lang ∈ supported_langs) :
    get_vocabulary_for_lang lang = some (vocab_of lang) := by
  simp only [supported_langs, List.mem_cons, List.not_mem_nil, or_false] at hl
  rcases hl with rfl | rfl | rfl | rfl | rfl | rfl | rfl | rfl | rfl <;> rfl

theorem get_vocab_none (lang : String) (hl : lang ∉ supported_langs) :
    get_vocabulary_for_lang lang = none := by
  simp only [supported_langs, List.mem_cons, List.not_mem_nil, or_false, not_or] at hl
  obtain ⟨h1, h2, h3, h4, h5, h6, h7, h8, h9⟩ := hl
  simp only [get_vocabulary_for_lang, if_neg h1, if_neg h2, if_neg h3, if_neg h4,
    if_neg h5, if_neg h6, if_neg h7, if_neg h8, if_neg h9]

theorem process_eq (ud : Char → List Char) (comb : Char → Bool) (lang : String)
    (s : List Char) (hl : lang ∈ supported_langs) :
    process_sentence ud comb lang s =
      (encode_chars (vocab_of lang) (normalize_text ud comb lang s)).mapError
        PyErr.keyError := by
  unfold process_sentence
  rw [get_vocab_eq lang hl]

theorem mapError_ok {ε ε' α : Type} (f : ε → ε') (e : Except ε α) (xs : α) :
    e.mapError f = Except.ok xs ↔ e = Except.ok xs := by
  cases e <;> simp [Except.mapError]

theorem vocab_nodup (lang : String) (hl : lang ∈ supported_langs) :
    (vocab_of lang).Nodup := by
  simp only [supported_langs, List.mem_cons, List.not_mem_nil, or_false] at hl
  rcases hl with rfl | rfl | rfl | rfl | rfl | rfl | rfl | rfl | rfl <;> decide

theorem subClass_not_mem {S r : List Char} {t : List Char} {c : Char}
    (hr : c ∉ r) (ht : c ∈ S ∨ c ∉ t) : c ∉ subClass S r t := by
  intro hc
  rcases subClass_chars S r t c hc with h | ⟨h1, h2⟩
  · exact hr h
  · rcases ht with h3 | h3
    · exact h2 h3
    · exact h3 h1

/-! ### Claim theorems -/

/-- C2: for every supported language `L` and every sentence `s` composed only
of characters reachable by `L`'s substitution cascade,
`encode(normalize(s, L), L)` succeeds: every character of the normalized
output is in `L`'s vocabulary, so the vocabulary-lookup error branch is
unreachable. -/
theorem claim_c2 (ud : Char → List Char) (comb : Char → Bool) (lang : String)
    (s : List Char) (hl : lang ∈ supported_langs)
    (hs : ∀ c ∈ s, c ∈ reachable_chars lang) :
    ∃ xs, process_sentence ud comb lang s = Except.ok xs := by
  obtain ⟨xs, hxs, _⟩ :=
    encode_decode_ok (vocab_of lang) _ (normalize_mem ud comb lang s hl hs)
  refine ⟨xs, ?_⟩
  rw [process_eq ud comb lang s hl, hxs]
  rfl

theorem claim_c2_witness :
    ∃ xs, process_sentence ud_id comb_none "en" (("hi").toList) = Except.ok xs :=
  claim_c2 ud_id comb_none "en" (("hi").toList) (by decide) (by decide)

/-- C3: for every supported language `L` and every string `t` over `L`'s
vocabulary, encoding succeeds and decoding the resulting index sequence back
through the vocabulary table reproduces exactly `t`. -/
theorem claim_c3 (lang : String) (t : List Char) (_hl : lang ∈ supported_langs)
    (ht : ∀ c ∈ t, c ∈ vocab_of lang) :
    ∃ xs, encode_chars (vocab_of lang) t = Except.ok xs ∧
      decode_chars (vocab_of lang) xs = some t :=
  encode_decode_ok (vocab_of lang) t ht

theorem claim_c3_witness :
    ∃ xs, encode_chars (vocab_of "ru") (("мир").toList) = Except.ok xs ∧
      decode_chars (vocab_of "ru") xs = some (("мир").toList) :=
  claim_c3 "ru" (("мир").toList) (by decide) (by decide)

/-- C4: the vocabulary for `"ru"` has exactly 34 symbols, the one for
`"ru34"` exactly 33, and they differ by the single merged letter `ё`
(removing `ё` from the `"ru"` vocabulary yields the `"ru34"` one). -/
theorem claim_c4 :
    (get_vocabulary_for_lang "ru").map List.length = some 34 ∧
    (get_vocabulary_for_lang "ru34").map List.length = some 33 ∧
    (get_vocabulary_for_lang "ru").map (fun v => v.erase 'ё') =
      get_vocabulary_for_lang "ru34" := by decide

/-- C7: normalizing `"Hello, World!"` for `"en"` yields exactly
`"hello world"`, and encoding yields the index sequence for
h,e,l,l,o,space,w,o,r,l,d under the English vocabulary
`[' ', 'a'..'z', apostrophe]`, in which `'a'` has id 1 and space id 0. -/
theorem claim_c7 (ud : Char → List Char) (comb : Char → Bool) :
    normalize_text ud comb "en" (("Hello, World!").toList) = ("hello world").toList ∧
    process_sentence ud comb "en" (("Hello, World!").toList) =
      Except.ok [8, 5, 12, 12, 15, 0, 23, 15, 18, 12, 4] ∧
    vocab_of "en" = (" abcdefghijklmnopqrstuvwxyz").toList ++ [apos] ∧
    firstIndex 'a' (vocab_of "en") = 1 ∧ firstIndex ' ' (vocab_of "en") = 0 := by
  refine ⟨?_, ?_, ?_, ?_, ?_⟩
  · rw [normalize_text_en]
    decide
  · rw [process_eq ud comb "en" _ (by decide), normalize_text_en]
    decide
  · rw [vocab_of_en]
    rfl
  · rw [vocab_of_en]
    decide
  · rw [vocab_of_en]
    decide

/-- C8: every language code outside the closed set
`{en, fr, de, it, es, ca, pl, ru, ru34}` fails with the assertion error
before any normalization or encoding (the result does not depend on the
sentence); codes inside the set never produce that error. -/
theorem claim_c8 (ud : Char → List Char) (comb : Char → Bool) (lang : String) :
    (lang ∉ supported_langs →
      ∀ s, process_sentence ud comb lang s = Except.error PyErr.assertFail) ∧
    (lang ∈ supported_langs →
      ∀ s, process_sentence ud comb lang s ≠ Except.error PyErr.assertFail) := by
  constructor
  · intro h s
    unfold process_sentence
    rw [get_vocab_none lang h]
  · intro h s hcontra
    rw [process_eq ud comb lang s h] at hcontra
    cases he : encode_chars (vocab_of lang) (normalize_text ud comb lang s) with
    | ok xs => rw [he] at hcontra; exact Except.noConfusion hcontra
    | error e => rw [he] at hcontra; exact PyErr.noConfusion (Except.error.inj hcontra)

theorem claim_c8_witness :
    process_sentence ud_id comb_none "xx" [] = Except.error PyErr.assertFail ∧
    process_sentence ud_id comb_none "en" [] ≠ Except.error PyErr.assertFail :=
  ⟨(claim_c8 ud_id comb_none "xx").1 (by decide) [],
   (claim_c8 ud_id comb_none "en").2 (by decide) []⟩

/-- C1 counterexample: the claim as stated says the encoding failure
identifies the offending character *and the language*; the lookup failure
(Python `KeyError`) carries only the character, so two different languages
produce the very same error value — the error does not identify the
language. -/
theorem claim_c1_cex :
    encode_chars (vocab_of "en") [('5' : Char)] = Except.error '5' ∧
    encode_chars (vocab_of "ru") [('5' : Char)] = Except.error '5' ∧
    vocab_of "en" ≠ vocab_of "ru" := by decide

/-- C1 (amended): for every supported language and every string, encoding
maps each character to its index in the language's vocabulary; a character
absent from the vocabulary makes encoding fail with an error identifying
the offending character (the first absent one; the language is not part of
the error payload); no character is silently skipped or mismapped. -/
theorem claim_c1_thm (lang : String) (t : List Char) (hl : lang ∈ supported_langs) :
    ((∀ c ∈ t, c ∈ vocab_of lang) →
      ∃ xs, encode_chars (vocab_of lang) t = Except.ok xs) ∧
    (∀ xs, encode_chars (vocab_of lang) t = Except.ok xs →
      xs.length = t.length ∧
      ∀ i c, t.get? i = some c →
        xs.get? i = some (firstIndex c (vocab_of lang))) ∧
    (∀ e, encode_chars (vocab_of lang) t = Except.error e →
      ∃ pre post, t = pre ++ e :: post ∧ (∀ d ∈ pre, d ∈ vocab_of lang) ∧
        e ∉ vocab_of lang) := by
  refine ⟨fun h => encode_ok_of_mem _ t h, ?_, fun e he => encode_error_spec _ t e he⟩
  intro xs hxs
  obtain ⟨hlen, hget⟩ := encode_ok_get _ t xs hxs
  refine ⟨hlen, ?_⟩
  intro i c hc
  have hct : c ∈ t := List.get?_mem hc
  have hcv : c ∈ vocab_of lang := encode_ok_all_mem _ t xs hxs c hct
  rw [hget i c hc, pyDict_nodup c _ (vocab_nodup lang hl) hcv]

theorem claim_c1_witness :
    ∃ xs, encode_chars (vocab_of "en") (("ab").toList) = Except.ok xs :=
  (claim_c1_thm "en" (("ab").toList) (by decide)).1 (by decide)

/-- C5 counterexample: for the English sentence ", a" the normalized text is
" a" (leading space retained), so the label has an integer for that leading
space — the claim's "leading and trailing space both stripped" reading would
give a one-symbol label, but the code's label has two. -/
theorem claim_c5_cex :
    process_sentence ud_id comb_none "en" ((", a").toList) = Except.ok [0, 1] ∧
    normalize_text ud_id comb_none "en" ((", a").toList) = (" a").toList ∧
    stripLeadTrail (normalize_text ud_id comb_none "en" ((", a").toList)) =
      ("a").toList ∧
    ¬ ([0, 1] : List Nat).length = (("a").toList).length := by decide

/-- C5 (amended): for every supported language and sentence, the encoded
label has one integer per character of the normalized sentence, including
interior (and a retained leading) space; only a single trailing space is
stripped by normalization, not a leading one. -/
theorem claim_c5_thm (ud : Char → List Char) (comb : Char → Bool) (lang : String)
    (s : List Char) (hl : lang ∈ supported_langs) :
    ∀ xs, process_sentence ud comb lang s = Except.ok xs →
      xs.length = (normalize_text ud comb lang s).length ∧
      ∀ i c, (normalize_text ud comb lang s).get? i = some c →
        xs.get? i = pyDict (vocab_of lang) c := by
  intro xs hxs
  rw [process_eq ud comb lang s hl, mapError_ok] at hxs
  exact encode_ok_get _ _ xs hxs

theorem claim_c5_witness :
    ([8, 9] : List Nat).length =
      (normalize_text ud_id comb_none "en" (("hi").toList)).length :=
  ((claim_c5_thm ud_id comb_none "en" (("hi").toList) (by decide)) [8, 9]
    (by decide)).1

/-- C6: normalization is not idempotent for English.  The apostrophe-boundary
rules run after the whitespace collapse: on "a ' b" the rule mapping
space-apostrophe to a space leaves the double space "a  b", and a second
pass collapses it to "a b". -/
theorem claim_c6_bug :
    normalize_text ud_id comb_none "en" ([('a' : Char), ' ', apos, ' ', 'b']) =
      [('a' : Char), ' ', ' ', 'b'] ∧
    normalize_text ud_id comb_none "en" ([('a' : Char), ' ', ' ', 'b']) =
      [('a' : Char), ' ', 'b'] ∧
    ([('a' : Char), ' ', ' ', 'b'] : List Char) ≠ [('a' : Char), ' ', 'b'] := by
  decide

/-- C9: for Polish, the three literal substitutions q→k, x→ks, v→w run
before the transliteration fallback: the text handed to the fallback never
contains `q`, `x` or `v`, and consequently the normalization result does not
depend on the fallback's behaviour on those three letters. -/
theorem claim_c9 (ud ud2 : Char → List Char) (t : List Char)
    (h : ∀ c, c ≠ 'q' → c ≠ 'x' → c ≠ 'v' → ud c = ud2 c) :
    (('q' ∉ pl_pre t) ∧ ('x' ∉ pl_pre t) ∧ ('v' ∉ pl_pre t)) ∧
    norm_pl ud t = norm_pl ud2 t := by
  have hform : pl_pre t =
      subClass (("v").toList) (("w").toList)
        (subClass (("x").toList) (("ks").toList)
          (subClass (("q").toList) (("k").toList)
            (subClass ((",;:!?“”„«»‘’<>()").toList ++ [quot]) ([] : List Char)
              (subClass ((".-—–/=_·@+…").toList) ((" ").toList) t)))) := by
    simp only [pl_pre, pl_rules, applyRules]
  have hq : 'q' ∉ pl_pre t := by
    rw [hform]
    apply subClass_not_mem (by decide)
    right
    apply subClass_not_mem (by decide)
    right
    exact subClass_not_mem (by decide) (Or.inl (by decide))
  have hx : 'x' ∉ pl_pre t := by
    rw [hform]
    apply subClass_not_mem (by decide)
    right
    exact subClass_not_mem (by decide) (Or.inl (by decide))
  have hv : 'v' ∉ pl_pre t := by
    rw [hform]
    exact subClass_not_mem (by decide) (Or.inl (by decide))
  refine ⟨⟨hq, hx, hv⟩, ?_⟩
  unfold norm_pl
  rw [fallbackMap_congr ud ud2 vocab_pl (pl_pre t) ?_]
  intro c hc _
  exact h c (fun e => hq (e ▸ hc)) (fun e => hx (e ▸ hc)) (fun e => hv (e ▸ hc))

theorem claim_c9_witness :
    (('q' ∉ pl_pre (("q").toList)) ∧ ('x' ∉ pl_pre (("q").toList)) ∧
      ('v' ∉ pl_pre (("q").toList))) ∧
    norm_pl ud_id (("q").toList) = norm_pl ud_drop (("q").toList) :=
  claim_c9 ud_id ud_drop (("q").toList)
    (fun c hq hx hv => by simp [ud_id, ud_drop, hq, hx, hv])

/-- C10: for every sentence, the `ru34` normalization equals the `ru`
normalization followed by the single letter-merge substitution `ё`→`е`
(the two branches share the identical Russian cascade, and the merge
commutes with the final trailing-space strip because it maps a character to
a space only if it already was a space). -/
theorem claim_c10 (ud : Char → List Char) (comb : Char → Bool) (s : List Char) :
    normalize_text ud comb "ru34" s = (normalize_text ud comb "ru" s).map yo_merge ∧
    ∀ c : Char, (yo_merge c = ' ' ↔ c = ' ') := by
  have hf : ∀ c : Char, yo_merge c = ' ' ↔ c = ' ' := by
    intro c
    by_cases hc : c = 'ё'
    · subst hc
      decide
    · unfold yo_merge
      rw [if_neg hc]
  refine ⟨?_, hf⟩
  rw [normalize_text_ru34, normalize_text_ru]
  have e0a : ("ё").toList = [('ё' : Char)] := by decide
  have e0b : ("е").toList = [('е' : Char)] := by decide
  have e1 : norm_ru true (s.map pyLower) =
      subClass (("ё").toList) (("е").toList) (ru_core (s.map pyLower)) := by
    unfold norm_ru
    rw [if_pos rfl]
  have e2 : norm_ru false (s.map pyLower) = ru_core (s.map pyLower) := by
    unfold norm_ru
    rw [if_neg (by decide)]
  have e3 : (fun c => if c = 'ё' then 'е' else c) = yo_merge := rfl
  rw [e1, e2, e0a, e0b, subClass_singleton_map, e3]
  exact stripTrailSp_map yo_merge hf (ru_core (s.map pyLower))
